import Mathlib

set_option linter.unusedVariables false

/-!
Verification of the MiniAlphaGO repository against its specification.

The repository's search core (Node, Tree, Search: the MCTS engine of
spec sections 3 and 4) is described by the specification but its source
is not present in the repository snapshot; following the spec, the
engine is modelled here as executable Lean definitions.  The frontend
navigation components (three variants of `Nav`) are present in the
snapshot and are embedded directly from their JSX source.
-/

namespace MiniAlphaGo

mutual

/-- Modelled from the spec: the search-tree data model of section 3.
`Node` represents one reachable game state: an opaque `state` handle
(the rules engine owns it; modelled as a natural number), the
`isExpanded` flag, and the ordered collection of `edges`.
Real-valued statistics are modelled as rationals. -/
inductive Node : Type where
  | mk (state : ℕ) (isExpanded : Bool) (edges : List Edge) : Node

/-- Modelled from the spec: the per-move statistics of section 3:
`move` identifier, `visitCount` (N), `totalValue` (W), `prior` (P),
and the lazily created `child` node. -/
inductive Edge : Type where
  | mk (move : ℕ) (visitCount : ℕ) (totalValue : ℚ) (prior : ℚ) (child : Option Node) : Edge

end

def Node.state : Node → ℕ
  | .mk s _ _ => s

def Node.isExpanded : Node → Bool
  | .mk _ ex _ => ex

def Node.edges : Node → List Edge
  | .mk _ _ es => es

def Edge.move : Edge → ℕ
  | .mk m _ _ _ _ => m

def Edge.visitCount : Edge → ℕ
  | .mk _ n _ _ _ => n

def Edge.totalValue : Edge → ℚ
  | .mk _ _ w _ _ => w

def Edge.prior : Edge → ℚ
  | .mk _ _ _ p _ => p

def Edge.child : Edge → Option Node
  | .mk _ _ _ _ c => c

/-- Modelled from the spec: the external rules-engine and inference
interfaces of section 6, used as a stub collaborator.  `evaluate`
returns the prior vector over legal moves and the scalar value. -/
structure Env where
  legalMoves : ℕ → List ℕ
  applyMove : ℕ → ℕ → ℕ
  isTerminal : ℕ → Bool
  outcome : ℕ → ℚ
  evaluate : ℕ → List ℚ × ℚ

/-- Modelled from the spec: the recognized search configuration options
of section 4.2.  The spec computes `sqrt(N(parent))` over the reals;
the model receives the map `N ↦ sqrt N` as the configuration field
`sqrtFn`, so that the engine stays executable over the rationals. -/
structure Config where
  simulationCount : ℕ
  explorationConstant : ℚ
  sqrtFn : ℕ → ℚ
  temperature : ℚ

/-- Modelled from the spec: the error taxonomy of section 7. -/
inductive MctsError : Type where
  | alreadyExpanded
  | invalidPriors
  | illegalMove
deriving DecidableEq

/-- Modelled from the spec: the floating tolerance for prior sums
(section 7 and section 8 use e.g. 1e-6). -/
def priorTol : ℚ := 1 / 1000000

/-- Modelled from the spec: `createRoot(state)` builds an unexpanded
node wrapping `state` (section 4.1). -/
def Node.createRoot (s : ℕ) : Node := .mk s false []

/-- Modelled from the spec: `expand(node, legalMoves, priors)` of
section 4.1, with the validation of section 7: a second expansion
fails with `AlreadyExpandedError`; malformed priors (length mismatch
with the legal moves, a negative entry, or a sum off 1 by more than
the tolerance — section 7 and the section 3 invariant) fail with
`InvalidPriorsError`; otherwise one edge is allocated per legal move
with the prior at the same position and no child node. -/
def Node.expand (n : Node) (legalMoves : List ℕ) (priors : List ℚ) :
    Except MctsError Node :=
  if n.isExpanded then .error .alreadyExpanded
  else if legalMoves.length ≠ priors.length then .error .invalidPriors
  else if priors.any (fun p => decide (p < 0)) then .error .invalidPriors
  else if priorTol < |priors.sum - 1| then .error .invalidPriors
  else .ok (.mk n.state true
    (List.zipWith (fun mv pr => Edge.mk mv 0 0 pr none) legalMoves priors))

/-- The edge list allocated by a successful expansion: one edge per
legal move, carrying the prior at the same position, with zero
statistics and no child. -/
def freshEdges (legalMoves : List ℕ) (priors : List ℚ) : List Edge :=
  List.zipWith (fun mv pr => Edge.mk mv 0 0 pr none) legalMoves priors

/-- Modelled from the spec: `meanValue` (Q) is `W / N` if `N > 0`,
else 0 (section 3). -/
def Edge.meanValue (e : Edge) : ℚ :=
  if e.visitCount = 0 then 0 else e.totalValue / (e.visitCount : ℚ)

/-- Modelled from the spec: the UCT score of section 4.2 step 1,
`UCT(edge) = Q(edge) + c * P(edge) * sqrt(N(parent)) / (1 + N(edge))`,
where `s` stands for the already computed `sqrt(N(parent))`. -/
def uctScore (c s : ℚ) (e : Edge) : ℚ :=
  e.meanValue + c * e.prior * s / (1 + (e.visitCount : ℚ))

/-- Modelled from the spec: a node's own visit count `N(parent)`,
which by the section 3 invariant equals 1 plus the sum of its child
edge visit counts. -/
def Node.visitWeight (n : Node) : ℕ :=
  1 + (n.edges.map Edge.visitCount).sum

/-- First index of a list attaining the maximal score; on a tie the
lowest index wins.  Returns 0 on the empty list. -/
def argmaxIdx (score : α → ℚ) : List α → ℕ
  | [] => 0
  | a :: rest =>
    let j := argmaxIdx score rest
    match rest.get? j with
    | none => 0
    | some b => if score a < score b then j + 1 else 0

/-- Modelled from the spec: steps 2 and 3 of the simulation loop
(section 4.2) at the leaf.  A terminal state's value is the game
outcome and no expansion happens; otherwise the node is expanded with
the rules engine's legal moves and the inference priors, and the
inference value becomes the leaf value. -/
def Node.leafEval (env : Env) (n : Node) : Except MctsError (Node × ℚ) :=
  if env.isTerminal n.state then .ok (n, env.outcome n.state)
  else
    match n.expand (env.legalMoves n.state) (env.evaluate n.state).1 with
    | .error e => .error e
    | .ok n2 => .ok (n2, (env.evaluate n.state).2)

/-- Modelled from the spec: the per-edge backpropagation update of
section 4.2 step 4 and section 8: the traversed edge `k` levels above
the leaf gains one visit and the value `v * (-1)^k`; the traversed
child is stored back. -/
def bumpEdge (v : ℚ) (k : ℕ) (c : Node) (e : Edge) : Edge :=
  .mk e.move (e.visitCount + 1) (e.totalValue + v * (-1 : ℚ) ^ k) e.prior (some c)

/-- Modelled from the spec: one full simulation of section 4.2
(selection by maximal UCT with lowest-index tie-break, lazy child
creation, terminal check, expansion + evaluation, and backpropagation
along the recorded path with sign alternation).  Returns the updated
node, the leaf value, and the recorded path of traversed edge
indices, root first. -/
def simulateOnce (env : Env) (cfg : Config) :
    Node → Except MctsError (Node × ℚ × List ℕ)
  | .mk s ex edges =>
    if env.isTerminal s || !ex then
      match Node.leafEval env (.mk s ex edges) with
      | .error er => .error er
      | .ok (l, v) => .ok (l, v, [])
    else
      let i := argmaxIdx
        (uctScore cfg.explorationConstant
          (cfg.sqrtFn (Node.visitWeight (.mk s ex edges)))) edges
      match hE : edges.get? i with
      | none => .error .alreadyExpanded
      | some e =>
        match hc : e.child with
        | some c =>
          match simulateOnce env cfg c with
          | .error er => .error er
          | .ok (c2, v, rest) =>
            .ok (.mk s ex (edges.set i (bumpEdge v rest.length c2 e)), v, i :: rest)
        | none =>
          match Node.leafEval env (.mk (env.applyMove s e.move) false []) with
          | .error er => .error er
          | .ok (c2, v) =>
            .ok (.mk s ex (edges.set i (bumpEdge v 0 c2 e)), v, [i])
termination_by n => sizeOf n
decreasing_by
  have h1 := List.sizeOf_lt_of_mem (List.get?_mem hE)
  have h2 : sizeOf c < sizeOf e := by
    cases e with
    | mk mv vc tv pr ch =>
      simp only [Edge.child] at hc
      subst hc
      simp only [Edge.mk.sizeOf_spec, Option.some.sizeOf_spec]
      omega
  simp only [Node.mk.sizeOf_spec]
  omega

/-- Modelled from the spec: the simulation loop of section 4.2, run
for the given number of simulations; an error in any simulation
aborts the whole search (section 7: a search either completes or
reports failure). -/
def runSims (env : Env) (cfg : Config) : ℕ → Node → Except MctsError Node
  | 0, n => .ok n
  | k + 1, n =>
    match simulateOnce env cfg n with
    | .error er => .error er
    | .ok (n2, _, _) => runSims env cfg k n2

/-- Modelled from the spec: `Tree` holds the current root node
(section 3). -/
structure Tree where
  root : Node

/-- Modelled from the spec: `advance(tree, move)` of section 4.1:
fails with `IllegalMoveError` if `move` is not among the root's
edges; otherwise returns a tree rooted at the child reached by
`move` (created unexpanded if it was never materialized), releasing
every other subtree. -/
def Tree.advance (env : Env) (t : Tree) (move : ℕ) : Except MctsError Tree :=
  match t.root.edges.find? (fun e => e.move == move) with
  | none => .error .illegalMove
  | some e =>
    match e.child with
    | some c => .ok ⟨c⟩
    | none => .ok ⟨Node.mk (env.applyMove t.root.state move) false []⟩

/-- Modelled from the spec: the output of a completed search
(section 3): the root edges' moves and visit counts, from which the
move distribution is derived, and the root's estimated value. -/
structure SearchResult where
  moves : List ℕ
  visits : List ℕ
  rootValue : ℚ

/-- Modelled from the spec: `Search.run(tree, config)` of sections 4.2
and 6: run the simulation budget and report the root edge statistics;
the root's reported value is `Q` of the most-visited edge. -/
def Search.run (env : Env) (cfg : Config) (t : Tree) :
    Except MctsError SearchResult :=
  match runSims env cfg cfg.simulationCount t.root with
  | .error er => .error er
  | .ok r =>
    .ok ⟨r.edges.map Edge.move, r.edges.map Edge.visitCount,
      match r.edges.get? (argmaxIdx (fun e => (e.visitCount : ℚ)) r.edges) with
      | none => 0
      | some e => e.meanValue⟩

/-- One-hot distribution of the given length, hot at index `hot`. -/
def oneHot (len hot : ℕ) : List ℝ :=
  (List.range len).map (fun j => if j = hot then 1 else 0)

/-- Modelled from the spec: the emitted move distribution of
section 4.2: `pi(move) = N(edge)^(1/temperature) / sum of
N(edge')^(1/temperature)` over root edges for positive temperature,
and at temperature 0 the one-hot distribution on the first
maximal-visit edge. -/
noncomputable def piDist (τ : ℚ) (ns : List ℕ) : List ℝ :=
  if τ = 0 then oneHot ns.length (argmaxIdx (fun k : ℕ => (k : ℚ)) ns)
  else ns.map (fun n =>
    (n : ℝ) ^ (1 / (τ : ℝ)) / ((ns.map (fun m => (m : ℝ) ^ (1 / (τ : ℝ)))).sum))

/-- The node reached from `n` by following a path of edge indices. -/
def nodeAt : Node → List ℕ → Option Node
  | n, [] => some n
  | n, i :: rest =>
    (n.edges.get? i).bind fun e => e.child.bind fun c => nodeAt c rest

/-- The edge reached from `n` by following a nonempty path of edge
indices (the returned edge is the one selected by the path's last
index). -/
def edgeAt : Node → List ℕ → Option Edge
  | _, [] => none
  | n, [i] => n.edges.get? i
  | n, i :: x :: q =>
    (n.edges.get? i).bind fun e => e.child.bind fun c => edgeAt c (x :: q)

mutual

/-- The visit-count bookkeeping invariant of an entire subtree, for a
node whose inbound visit count is `m` (for the root: the number of
completed simulations): an expanded node is non-terminal and satisfies
`m = 1 + sum of child edge visit counts`; an unexpanded node is either
terminal or never yet visited; and every edge satisfies
`edgeVisitOk`. -/
def visitOk (env : Env) (m : ℕ) : Node → Bool
  | .mk s ex edges =>
    (if ex then
       !env.isTerminal s && (m == 1 + (edges.map Edge.visitCount).sum)
     else
       env.isTerminal s || (m == 0))
    && edgesVisitOk env edges

/-- An edge with no child has never been traversed; an edge with a
child passes its own visit count down as the child's inbound count. -/
def edgeVisitOk (env : Env) : Edge → Bool
  | .mk _ vc _ _ none => vc == 0
  | .mk _ vc _ _ (some c) => visitOk env vc c

/-- `edgeVisitOk` for every edge of a list. -/
def edgesVisitOk (env : Env) : List Edge → Bool
  | [] => true
  | e :: rest => edgeVisitOk env e && edgesVisitOk env rest

end

mutual

/-- The prior invariant of an entire subtree (spec sections 3 and 8):
an expanded node's priors are non-negative and sum to 1 within the
floating tolerance; an unexpanded node has no edges; and the same
holds recursively in every materialized child. -/
def priorOk : Node → Bool
  | .mk _ ex edges =>
    (if ex then
       edges.all (fun e => decide (0 ≤ e.prior))
         && decide (|(edges.map Edge.prior).sum - 1| ≤ priorTol)
     else
       edges.isEmpty)
    && edgesPriorOk edges

/-- `priorOk` in the child of an edge, when materialized. -/
def edgePriorOk : Edge → Bool
  | .mk _ _ _ _ none => true
  | .mk _ _ _ _ (some c) => priorOk c

/-- `edgePriorOk` for every edge of a list. -/
def edgesPriorOk : List Edge → Bool
  | [] => true
  | e :: rest => edgePriorOk e && edgesPriorOk rest

end

/-- Modelled from the spec: the states of the search tree reachable by
the public operations: creating a root (section 4.1), running
simulations (section 4.2), expanding a node (section 4.1), and
advancing past a real move (section 4.1). -/
inductive Reachable (env : Env) (cfg : Config) : Node → Prop where
  | root (s : ℕ) : Reachable env cfg (Node.createRoot s)
  | sim {n n' : Node} {v : ℚ} {p : List ℕ} :
      Reachable env cfg n → simulateOnce env cfg n = .ok (n', v, p) →
      Reachable env cfg n'
  | expandStep {n n' : Node} {lm : List ℕ} {ps : List ℚ} :
      Reachable env cfg n → n.expand lm ps = .ok n' → Reachable env cfg n'
  | advanceStep {n : Node} {t' : Tree} {mv : ℕ} :
      Reachable env cfg n → Tree.advance env ⟨n⟩ mv = .ok t' →
      Reachable env cfg t'.root

/-- An anchor element rendered by a navigation component: its text
label and its `href` target. -/
structure Anchor where
  label : String
  href : String
deriving DecidableEq

/-- The anchors rendered by the `Nav` component variant in
`src/unnamed/part_001`, in document order. -/
def navPart001 : List Anchor :=
  [⟨"Home", "/"⟩,
   ⟨"Play", "https://online-go.com/play"⟩,
   ⟨"Stats", "/stats"⟩,
   ⟨"Settings", "/Settings"⟩]

/-- The anchors rendered by the `Nav` component variant in
`src/unnamed/part_002`, in document order. -/
def navPart002 : List Anchor :=
  [⟨"Home", "/"⟩,
   ⟨"Play", "https://online-go.com/play"⟩,
   ⟨"Stats", "/stats"⟩,
   ⟨"Settings", "/settings"⟩]

/-- The anchors rendered by the `Nav` component variant in
`src/unnamed/part_003`, in document order. -/
def navPart003 : List Anchor :=
  [⟨"Home", "/"⟩,
   ⟨"Play", "https://online-go.com/play"⟩,
   ⟨"Stats", "/stats"⟩,
   ⟨"Settings", "/settings"⟩]

/-- A concrete stub environment: state 0 is the root with one legal
move 0 leading to state 1, which is terminal with outcome 1; the stub
inference returns priors `[1]` and value `3/10`. -/
def env0 : Env where
  legalMoves := fun s => if s = 0 then [0] else []
  applyMove := fun _ _ => 1
  isTerminal := fun s => decide (s = 1)
  outcome := fun _ => 1
  evaluate := fun _ => ([1], 3 / 10)

/-- A concrete configuration for the stub environment. -/
def cfg0 : Config where
  simulationCount := 3
  explorationConstant := 1
  sqrtFn := fun n => (n : ℚ)
  temperature := 0

/-- The edge index chosen by the selection step at a node: the first
index maximizing the UCT score. -/
def selIdx (env : Env) (cfg : Config) (n : Node) : ℕ :=
  argmaxIdx
    (uctScore cfg.explorationConstant (cfg.sqrtFn n.visitWeight)) n.edges

/-- Selection soundness as a predicate: at every node along the path
`p` descended from `n`, the node is expanded and non-terminal and the
recorded edge index attains the maximal UCT score among the node's
edges, every earlier index scoring strictly less (lowest-index
tie-break). -/
def selectionSound (env : Env) (cfg : Config) (n : Node) (p : List ℕ) : Prop :=
  ∀ k, k < p.length →
    ∃ nq i e, nodeAt n (p.take k) = some nq ∧
      nq.isExpanded = true ∧ env.isTerminal nq.state = false ∧
      p.get? k = some i ∧ nq.edges.get? i = some e ∧
      (∀ x ∈ nq.edges,
        uctScore cfg.explorationConstant (cfg.sqrtFn nq.visitWeight) x ≤
        uctScore cfg.explorationConstant (cfg.sqrtFn nq.visitWeight) e) ∧
      (∀ j y, j < i → nq.edges.get? j = some y →
        uctScore cfg.explorationConstant (cfg.sqrtFn nq.visitWeight) y <
        uctScore cfg.explorationConstant (cfg.sqrtFn nq.visitWeight) e)

/-- Backpropagation statistics as a predicate: every edge traversed by
the path `p` (read in the pre-simulation tree `n` and the
post-simulation tree `n'`) gains exactly one visit and the value
`v * (-1)^k`, where `k` counts levels above the leaf; move and prior
are untouched. -/
def backpropStats (n n' : Node) (v : ℚ) (p : List ℕ) : Prop :=
  ∀ k, k + 1 ≤ p.length →
    ∃ e e', edgeAt n (p.take (k + 1)) = some e ∧
      edgeAt n' (p.take (k + 1)) = some e' ∧
      e'.visitCount = e.visitCount + 1 ∧
      e'.totalValue = e.totalValue + v * (-1 : ℚ) ^ (p.length - (k + 1)) ∧
      e'.move = e.move ∧ e'.prior = e.prior

/-- An already-expanded one-edge root for the stub environment
`env0`. -/
def root1 : Node := .mk 0 true [.mk 0 0 0 1 none]

/-- The tree produced from `root1` by one simulation under `env0`. -/
def root2 : Node := .mk 0 true [.mk 0 1 1 1 (some (.mk 1 false []))]

/-- A concrete stub environment with a depth-2 game: every state has
one legal move, states advance by one, state 2 is terminal with
outcome 1, and the stub inference returns priors `[1]` and value
`1/2`. -/
def env2 : Env where
  legalMoves := fun _ => [0]
  applyMove := fun s _ => s + 1
  isTerminal := fun s => decide (s = 2)
  outcome := fun _ => 1
  evaluate := fun _ => ([1], 1 / 2)

/-- The tree reached from a fresh root after two simulations under
`env2`. -/
def preT : Node := .mk 0 true [.mk 0 1 (1 / 2) 1 (some (.mk 1 true [.mk 0 0 0 1 none]))]

/-- The tree reached from `preT` by one more simulation under
`env2`. -/
def postT : Node :=
  .mk 0 true [.mk 0 2 (-1 / 2) 1 (some (.mk 1 true [.mk 0 1 1 1 (some (.mk 2 false []))]))]

/-- The tree produced from `root2` by one more simulation under
`env0`. -/
def root3 : Node := .mk 0 true [.mk 0 2 2 1 (some (.mk 1 false []))]

/-- The move distribution the search emits for a completed result at
the configured temperature. -/
noncomputable def emittedDist (cfg : Config) (res : SearchResult) : List ℝ :=
  piDist cfg.temperature res.visits

/-- The positive-temperature distribution formula of section 4.2:
`pi(move) = N^(1/temperature) / sum of N'^(1/temperature)` over the
root edges. -/
def tempFormula (cfg : Config) (res : SearchResult) : Prop :=
  emittedDist cfg res = res.visits.map (fun n =>
    (n : ℝ) ^ (1 / (cfg.temperature : ℝ)) /
      ((res.visits.map (fun m => (m : ℝ) ^ (1 / (cfg.temperature : ℝ)))).sum))

/-- The temperature-0 one-hot property: the emitted distribution is
one-hot on an index carrying the maximal visit count, every earlier
index carrying strictly fewer visits. -/
def tempZeroOneHot (cfg : Config) (res : SearchResult) : Prop :=
  ∃ j b, emittedDist cfg res = oneHot res.visits.length j ∧
    res.visits.get? j = some b ∧ (∀ x ∈ res.visits, x ≤ b) ∧
    (∀ i y, i < j → res.visits.get? i = some y → y < b)

section ListHelpers

variable {α : Type _} {M : Type _}

lemma get?_set_self {l : List α} {i : ℕ} {x : α} (h : i < l.length) :
    (l.set i x).get? i = some x := by
  induction l generalizing i with
  | nil => simp at h
  | cons a rest ih =>
    cases i with
    | zero => rfl
    | succ j => simpa using ih (by simpa using h)

lemma get?_set_other {l : List α} {i j : ℕ} {x : α} (h : j ≠ i) :
    (l.set i x).get? j = l.get? j := by
  induction l generalizing i j with
  | nil => simp
  | cons a rest ih =>
    cases i with
    | zero =>
      cases j with
      | zero => exact absurd rfl h
      | succ k => rfl
    | succ i' =>
      cases j with
      | zero => rfl
      | succ k => simpa using ih (by omega)

lemma map_set_congr {l : List α} {i : ℕ} {x e : α} (f : α → M)
    (hE : l.get? i = some e) (hfx : f x = f e) :
    (l.set i x).map f = l.map f := by
  induction l generalizing i with
  | nil => simp at hE
  | cons a rest ih =>
    cases i with
    | zero =>
      simp only [List.get?] at hE
      injection hE with hE
      subst hE
      simp [hfx]
    | succ j =>
      simp only [List.get?] at hE
      simp [ih hE]

lemma map_sum_set [AddCommMonoid M] {l : List α} {i : ℕ} {x e : α}
    (f : α → M) (hE : l.get? i = some e) :
    ((l.set i x).map f).sum + f e = (l.map f).sum + f x := by
  induction l generalizing i with
  | nil => simp at hE
  | cons a rest ih =>
    cases i with
    | zero =>
      simp only [List.get?] at hE
      injection hE with hE
      subst hE
      simp only [List.set, List.map_cons, List.sum_cons]
      abel
    | succ j =>
      simp only [List.get?] at hE
      simp only [List.set, List.map_cons, List.sum_cons, add_assoc]
      rw [ih hE]

end ListHelpers

/-- Specification of `argmaxIdx`: on a nonempty list it returns the
index of an element whose score is maximal, and every earlier index
has a strictly smaller score (ties resolved towards the lowest
index). -/
lemma argmaxIdx_spec {α : Type _} (score : α → ℚ) (l : List α) (hne : l ≠ []) :
    ∃ b, l.get? (argmaxIdx score l) = some b ∧
      (∀ x ∈ l, score x ≤ score b) ∧
      (∀ j y, j < argmaxIdx score l → l.get? j = some y → score y < score b) := by
  induction l with
  | nil => exact absurd rfl hne
  | cons a rest ih =>
    by_cases hr : rest = []
    · subst hr
      refine ⟨a, by simp [argmaxIdx], ?_, ?_⟩
      · intro x hx
        simp at hx
        subst hx
        exact le_refl _
      · intro j y hj hy
        simp [argmaxIdx] at hj
    · obtain ⟨b, hb, hmax, hfirst⟩ := ih hr
      simp only [argmaxIdx, hb]
      by_cases hab : score a < score b
      · simp only [if_pos hab]
        refine ⟨b, by simpa using hb, ?_, ?_⟩
        · intro x hx
          rcases List.mem_cons.mp hx with h | h
          · subst h; exact le_of_lt hab
          · exact hmax x h
        · intro j y hj hy
          cases j with
          | zero =>
            simp only [List.get?] at hy
            injection hy with hy
            subst hy
            exact hab
          | succ k =>
            simp only [List.get?] at hy
            exact hfirst k y (by omega) hy
      · simp only [if_neg hab]
        refine ⟨a, rfl, ?_, ?_⟩
        · intro x hx
          rcases List.mem_cons.mp hx with h | h
          · subst h; exact le_refl _
          · exact le_trans (hmax x h) (le_of_not_lt hab)
        · intro j y hj hy
          omega

lemma freshEdges_map_move {lm : List ℕ} {ps : List ℚ}
    (h : lm.length = ps.length) : (freshEdges lm ps).map Edge.move = lm := by
  induction lm generalizing ps with
  | nil => simp [freshEdges]
  | cons a rest ih =>
    cases ps with
    | nil => simp at h
    | cons p ps' =>
      exact congrArg (List.cons a) (ih (by simpa using h))

lemma freshEdges_map_prior {lm : List ℕ} {ps : List ℚ}
    (h : lm.length = ps.length) : (freshEdges lm ps).map Edge.prior = ps := by
  induction lm generalizing ps with
  | nil =>
    cases ps with
    | nil => simp [freshEdges]
    | cons p ps' => simp at h
  | cons a rest ih =>
    cases ps with
    | nil => simp at h
    | cons p ps' =>
      exact congrArg (List.cons p) (ih (by simpa using h))

lemma freshEdges_visit_sum (lm : List ℕ) (ps : List ℚ) :
    ((freshEdges lm ps).map Edge.visitCount).sum = 0 := by
  induction lm generalizing ps with
  | nil => simp [freshEdges]
  | cons a rest ih =>
    cases ps with
    | nil => simp [freshEdges]
    | cons p ps' =>
      simp only [freshEdges, List.zipWith, List.map_cons, List.sum_cons,
        Edge.visitCount] at *
      simpa using ih ps'

lemma freshEdges_edgesVisitOk (env : Env) (lm : List ℕ) (ps : List ℚ) :
    edgesVisitOk env (freshEdges lm ps) = true := by
  induction lm generalizing ps with
  | nil => simp [freshEdges, edgesVisitOk]
  | cons a rest ih =>
    cases ps with
    | nil => simp [freshEdges, edgesVisitOk]
    | cons p ps' =>
      simp only [freshEdges, List.zipWith, edgesVisitOk, edgeVisitOk,
        Bool.and_eq_true] at *
      exact ⟨by simp, ih ps'⟩

lemma freshEdges_edgesPriorOk (lm : List ℕ) (ps : List ℚ) :
    edgesPriorOk (freshEdges lm ps) = true := by
  induction lm generalizing ps with
  | nil => simp [freshEdges, edgesPriorOk]
  | cons a rest ih =>
    cases ps with
    | nil => simp [freshEdges, edgesPriorOk]
    | cons p ps' =>
      simp only [freshEdges, List.zipWith, edgesPriorOk, edgePriorOk,
        Bool.and_eq_true] at *
      exact ⟨by trivial, ih ps'⟩

/-- Full characterization of a successful expansion. -/
lemma expand_eq_ok {n : Node} {lm : List ℕ} {ps : List ℚ} {n' : Node} :
    n.expand lm ps = .ok n' ↔
      n.isExpanded = false ∧ lm.length = ps.length ∧ (∀ q ∈ ps, 0 ≤ q) ∧
        |ps.sum - 1| ≤ priorTol ∧ n' = .mk n.state true (freshEdges lm ps) := by
  unfold Node.expand
  split_ifs with h1 h2 h3 h4
  · constructor
    · intro h; cases h
    · rintro ⟨hex, -⟩
      exact absurd h1 (by simp [hex])
  · constructor
    · intro h; cases h
    · rintro ⟨-, hlen, -⟩
      exact absurd hlen h2
  · constructor
    · intro h; cases h
    · rintro ⟨-, -, hnn, -⟩
      rcases List.any_eq_true.mp h3 with ⟨q, hq, hlt⟩
      exact absurd (hnn q hq) (by simpa using hlt)
  · constructor
    · intro h; cases h
    · rintro ⟨-, -, -, hsum, -⟩
      exact absurd hsum (not_le.mpr h4)
  · constructor
    · intro h
      injection h with h
      refine ⟨by simpa using h1, by omega, ?_, by simpa using not_lt.mp h4, h.symm⟩
      intro q hq
      by_contra hneg
      exact h3 (List.any_eq_true.mpr ⟨q, hq, by simpa using not_le.mp hneg⟩)
    · rintro ⟨-, -, -, -, rfl⟩
      rfl

lemma expand_already {n : Node} {lm : List ℕ} {ps : List ℚ}
    (h : n.isExpanded = true) : n.expand lm ps = .error .alreadyExpanded := by
  simp [Node.expand, h]

lemma expand_len_mismatch {n : Node} {lm : List ℕ} {ps : List ℚ}
    (hex : n.isExpanded = false) (h : lm.length ≠ ps.length) :
    n.expand lm ps = .error .invalidPriors := by
  simp [Node.expand, hex, h]

lemma expand_neg_prior {n : Node} {lm : List ℕ} {ps : List ℚ} {q : ℚ}
    (hex : n.isExpanded = false) (hq : q ∈ ps) (hlt : q < 0) :
    n.expand lm ps = .error .invalidPriors := by
  have hany : ps.any (fun p => decide (p < 0)) = true :=
    List.any_eq_true.mpr ⟨q, hq, by simpa using hlt⟩
  unfold Node.expand
  rw [if_neg (by simp [hex])]
  by_cases hlen : lm.length ≠ ps.length
  · rw [if_pos hlen]
  · rw [if_neg hlen, if_pos hany]

lemma expand_bad_sum {n : Node} {lm : List ℕ} {ps : List ℚ}
    (hex : n.isExpanded = false) (h : priorTol < |ps.sum - 1|) :
    n.expand lm ps = .error .invalidPriors := by
  unfold Node.expand
  rw [if_neg (by simp [hex])]
  by_cases hlen : lm.length ≠ ps.length
  · rw [if_pos hlen]
  · rw [if_neg hlen]
    by_cases hany : ps.any (fun p => decide (p < 0)) = true
    · rw [if_pos hany]
    · rw [if_neg hany, if_pos h]

lemma leafEval_terminal {env : Env} {n : Node}
    (h : env.isTerminal n.state = true) :
    Node.leafEval env n = .ok (n, env.outcome n.state) := by
  simp [Node.leafEval, h]

lemma leafEval_nonterminal {env : Env} {n : Node}
    (h : env.isTerminal n.state = false) :
    Node.leafEval env n =
      match n.expand (env.legalMoves n.state) (env.evaluate n.state).1 with
      | .error e => .error e
      | .ok n2 => .ok (n2, (env.evaluate n.state).2) := by
  simp [Node.leafEval, h]

/-- Case analysis of a successful leaf evaluation. -/
lemma leafEval_ok_elim {env : Env} {n l : Node} {v : ℚ}
    (h : Node.leafEval env n = .ok (l, v)) :
    (env.isTerminal n.state = true ∧ l = n ∧ v = env.outcome n.state) ∨
      (env.isTerminal n.state = false ∧
        n.expand (env.legalMoves n.state) (env.evaluate n.state).1 = .ok l ∧
        v = (env.evaluate n.state).2) := by
  by_cases hT : env.isTerminal n.state = true
  · rw [leafEval_terminal hT] at h
    injection h with h
    exact Or.inl ⟨hT, congrArg Prod.fst h.symm, congrArg Prod.snd h.symm⟩
  · have hT' : env.isTerminal n.state = false := by simpa using hT
    rw [leafEval_nonterminal hT'] at h
    right
    refine ⟨hT', ?_⟩
    revert h
    split
    · intro h; cases h
    · rename_i n2 heq
      intro h
      injection h with h
      injection h with ha hb
      exact ⟨ha ▸ heq, hb.symm⟩

lemma simulateOnce_leaf {env : Env} {cfg : Config} {s : ℕ} {ex : Bool}
    {edges : List Edge} (h : env.isTerminal s = true ∨ ex = false) :
    simulateOnce env cfg (.mk s ex edges) =
      match Node.leafEval env (.mk s ex edges) with
      | .error er => .error er
      | .ok (l, v) => .ok (l, v, []) := by
  rw [simulateOnce]
  rcases h with h | h
  · simp [h]
  · subst h; simp

lemma simulateOnce_noEdges {env : Env} {cfg : Config} {s : ℕ}
    {edges : List Edge} (hT : env.isTerminal s = false)
    (hE : edges.get? (selIdx env cfg (.mk s true edges)) = none) :
    simulateOnce env cfg (.mk s true edges) = .error .alreadyExpanded := by
  have hE' : edges.get?
      (argmaxIdx (uctScore cfg.explorationConstant
        (cfg.sqrtFn (Node.mk s true edges).visitWeight)) edges) = none := hE
  rw [simulateOnce]
  split
  · rename_i h
    rw [hT] at h
    simp at h
  · simp only []
    split
    · rfl
    · rename_i e heq
      rw [hE'] at heq
      cases heq

lemma simulateOnce_descend_ok {env : Env} {cfg : Config} {s : ℕ}
    {edges : List Edge} {e : Edge} {c c2 : Node} {v : ℚ} {rest : List ℕ}
    (hT : env.isTerminal s = false)
    (hE : edges.get? (selIdx env cfg (.mk s true edges)) = some e)
    (hc : e.child = some c)
    (hsim : simulateOnce env cfg c = .ok (c2, v, rest)) :
    simulateOnce env cfg (.mk s true edges) =
      .ok (.mk s true
        (edges.set (selIdx env cfg (.mk s true edges))
          (bumpEdge v rest.length c2 e)), v,
        selIdx env cfg (.mk s true edges) :: rest) := by
  have hE' : edges.get?
      (argmaxIdx (uctScore cfg.explorationConstant
        (cfg.sqrtFn (Node.mk s true edges).visitWeight)) edges) = some e := hE
  rw [simulateOnce]
  split
  · rename_i h
    rw [hT] at h
    simp at h
  · simp only []
    split
    · rename_i heq
      rw [hE'] at heq
      cases heq
    · rename_i e' heq
      rw [hE'] at heq
      injection heq with heq
      subst heq
      split
      · rename_i c' heqc
        rw [hc] at heqc
        injection heqc with heqc
        subst heqc
        rw [hsim]
        rfl
      · rename_i heqc
        rw [hc] at heqc
        cases heqc

lemma simulateOnce_descend_err {env : Env} {cfg : Config} {s : ℕ}
    {edges : List Edge} {e : Edge} {c : Node} {er : MctsError}
    (hT : env.isTerminal s = false)
    (hE : edges.get? (selIdx env cfg (.mk s true edges)) = some e)
    (hc : e.child = some c)
    (hsim : simulateOnce env cfg c = .error er) :
    simulateOnce env cfg (.mk s true edges) = .error er := by
  have hE' : edges.get?
      (argmaxIdx (uctScore cfg.explorationConstant
        (cfg.sqrtFn (Node.mk s true edges).visitWeight)) edges) = some e := hE
  rw [simulateOnce]
  split
  · rename_i h
    rw [hT] at h
    simp at h
  · simp only []
    split
    · rename_i heq
      rw [hE'] at heq
      cases heq
    · rename_i e' heq
      rw [hE'] at heq
      injection heq with heq
      subst heq
      split
      · rename_i c' heqc
        rw [hc] at heqc
        injection heqc with heqc
        subst heqc
        rw [hsim]
      · rename_i heqc
        rw [hc] at heqc
        cases heqc

lemma simulateOnce_fresh_ok {env : Env} {cfg : Config} {s : ℕ}
    {edges : List Edge} {e : Edge} {c2 : Node} {v : ℚ}
    (hT : env.isTerminal s = false)
    (hE : edges.get? (selIdx env cfg (.mk s true edges)) = some e)
    (hc : e.child = none)
    (hlf : Node.leafEval env (.mk (env.applyMove s e.move) false []) = .ok (c2, v)) :
    simulateOnce env cfg (.mk s true edges) =
      .ok (.mk s true
        (edges.set (selIdx env cfg (.mk s true edges))
          (bumpEdge v 0 c2 e)), v,
        [selIdx env cfg (.mk s true edges)]) := by
  have hE' : edges.get?
      (argmaxIdx (uctScore cfg.explorationConstant
        (cfg.sqrtFn (Node.mk s true edges).visitWeight)) edges) = some e := hE
  rw [simulateOnce]
  split
  · rename_i h
    rw [hT] at h
    simp at h
  · simp only []
    split
    · rename_i heq
      rw [hE'] at heq
      cases heq
    · rename_i e' heq
      rw [hE'] at heq
      injection heq with heq
      subst heq
      split
      · rename_i c' heqc
        rw [hc] at heqc
        cases heqc
      · rw [hlf]
        rfl

lemma simulateOnce_fresh_err {env : Env} {cfg : Config} {s : ℕ}
    {edges : List Edge} {e : Edge} {er : MctsError}
    (hT : env.isTerminal s = false)
    (hE : edges.get? (selIdx env cfg (.mk s true edges)) = some e)
    (hc : e.child = none)
    (hlf : Node.leafEval env (.mk (env.applyMove s e.move) false []) = .error er) :
    simulateOnce env cfg (.mk s true edges) = .error er := by
  have hE' : edges.get?
      (argmaxIdx (uctScore cfg.explorationConstant
        (cfg.sqrtFn (Node.mk s true edges).visitWeight)) edges) = some e := hE
  rw [simulateOnce]
  split
  · rename_i h
    rw [hT] at h
    simp at h
  · simp only []
    split
    · rename_i heq
      rw [hE'] at heq
      cases heq
    · rename_i e' heq
      rw [hE'] at heq
      injection heq with heq
      subst heq
      split
      · rename_i c' heqc
        rw [hc] at heqc
        cases heqc
      · rw [hlf]

lemma get?_lt_length {α : Type _} {l : List α} {i : ℕ} {a : α}
    (h : l.get? i = some a) : i < l.length := by
  induction l generalizing i with
  | nil => cases h
  | cons x rest ih =>
    cases i with
    | zero => simp
    | succ j =>
      simp only [List.get?] at h
      simpa using ih h

lemma nodeAt_nil (n : Node) : nodeAt n [] = some n := rfl

lemma nodeAt_cons {s : ℕ} {ex : Bool} {edges : List Edge} {c : Node}
    {e : Edge} {i : ℕ} {q : List ℕ}
    (hE : edges.get? i = some e) (hc : e.child = some c) :
    nodeAt (.mk s ex edges) (i :: q) = nodeAt c q := by
  show (edges.get? i).bind (fun e => e.child.bind fun c => nodeAt c q) = _
  rw [hE]
  show e.child.bind (fun c => nodeAt c q) = _
  rw [hc]
  rfl

lemma edgeAt_single {n : Node} {i : ℕ} :
    edgeAt n [i] = n.edges.get? i := rfl

lemma edgeAt_cons_cons {s : ℕ} {ex : Bool} {edges : List Edge} {c : Node}
    {e : Edge} {i x : ℕ} {q : List ℕ}
    (hE : edges.get? i = some e) (hc : e.child = some c) :
    edgeAt (.mk s ex edges) (i :: x :: q) = edgeAt c (x :: q) := by
  show (edges.get? i).bind (fun e => e.child.bind fun c => edgeAt c (x :: q)) = _
  rw [hE]
  show e.child.bind (fun c => edgeAt c (x :: q)) = _
  rw [hc]
  rfl

/-- Inversion of a successful simulation at an expanded non-terminal
node or at a leaf: the three ways `simulateOnce` can succeed. -/
lemma simulateOnce_ok_elim {env : Env} {cfg : Config} {s : ℕ} {ex : Bool}
    {edges : List Edge} {n' : Node} {v : ℚ} {p : List ℕ}
    (hsim : simulateOnce env cfg (.mk s ex edges) = .ok (n', v, p)) :
    ((env.isTerminal s = true ∨ ex = false) ∧
      Node.leafEval env (.mk s ex edges) = .ok (n', v) ∧ p = []) ∨
    (env.isTerminal s = false ∧ ex = true ∧
      ∃ e c c2 rest,
        edges.get? (selIdx env cfg (.mk s true edges)) = some e ∧
        ((e.child = some c ∧ simulateOnce env cfg c = .ok (c2, v, rest) ∧
            p = selIdx env cfg (.mk s true edges) :: rest) ∨
         (e.child = none ∧ c = .mk (env.applyMove s e.move) false [] ∧
            Node.leafEval env c = .ok (c2, v) ∧ rest = [] ∧
            p = [selIdx env cfg (.mk s true edges)])) ∧
        n' = .mk s true
          (edges.set (selIdx env cfg (.mk s true edges))
            (bumpEdge v rest.length c2 e))) := by
  by_cases hlf : env.isTerminal s = true ∨ ex = false
  · left
    rw [simulateOnce_leaf hlf] at hsim
    revert hsim
    split
    · intro h; cases h
    · rename_i l v0 heq
      intro h
      injection h with h
      injection h with h1 h2
      injection h2 with h2 h3
      subst h1; subst h2
      exact ⟨hlf, heq, h3.symm⟩
  · right
    push_neg at hlf
    obtain ⟨hT, hex⟩ := hlf
    have hT' : env.isTerminal s = false := by simpa using hT
    have hex' : ex = true := by simpa using hex
    subst hex'
    refine ⟨hT', rfl, ?_⟩
    cases hE : edges.get? (selIdx env cfg (.mk s true edges)) with
    | none =>
      rw [simulateOnce_noEdges hT' hE] at hsim
      cases hsim
    | some e =>
      cases hc : e.child with
      | some c =>
        cases hs : simulateOnce env cfg c with
        | error er =>
          rw [simulateOnce_descend_err hT' hE hc hs] at hsim
          cases hsim
        | ok trip =>
          obtain ⟨c2, v2, rest⟩ := trip
          rw [simulateOnce_descend_ok hT' hE hc hs] at hsim
          injection hsim with h
          injection h with h1 h2
          injection h2 with h2 h3
          subst h1; subst h2
          exact ⟨e, c, c2, rest, rfl, Or.inl ⟨hc, hs, h3.symm⟩, rfl⟩
      | none =>
        cases hlf2 : Node.leafEval env (.mk (env.applyMove s e.move) false []) with
        | error er =>
          rw [simulateOnce_fresh_err hT' hE hc hlf2] at hsim
          cases hsim
        | ok pr =>
          obtain ⟨c2, v2⟩ := pr
          rw [simulateOnce_fresh_ok hT' hE hc hlf2] at hsim
          injection hsim with h
          injection h with h1 h2
          injection h2 with h2 h3
          subst h1; subst h2
          exact ⟨e, .mk (env.applyMove s e.move) false [], c2, [], rfl,
            Or.inr ⟨hc, rfl, hlf2, rfl, h3.symm⟩, rfl⟩

lemma sizeOf_child_lt {edges : List Edge} {i : ℕ} {e : Edge} {c : Node}
    {s : ℕ} {b : Bool}
    (hE : edges.get? i = some e) (hc : e.child = some c) :
    sizeOf c < sizeOf (Node.mk s b edges) := by
  have h1 := List.sizeOf_lt_of_mem (List.get?_mem hE)
  have h2 : sizeOf c < sizeOf e := by
    cases e with
    | mk mv vc tv pr ch =>
      simp only [Edge.child] at hc
      subst hc
      simp only [Edge.mk.sizeOf_spec, Option.some.sizeOf_spec]
      omega
  simp only [Node.mk.sizeOf_spec]
  omega

lemma bumpEdge_child (v : ℚ) (k : ℕ) (c : Node) (e : Edge) :
    (bumpEdge v k c e).child = some c := rfl

/-- Backpropagation statistics of one successful simulation, by strong
induction on the tree size: every traversed edge gains exactly one
visit and the value `v * (-1)^k`, where `k` counts levels above the
leaf; its move and prior are untouched. -/
lemma simulateOnce_stats_aux (env : Env) (cfg : Config) :
    ∀ (N : ℕ) (n : Node), sizeOf n ≤ N →
      ∀ {n' : Node} {v : ℚ} {p : List ℕ},
        simulateOnce env cfg n = .ok (n', v, p) →
        ∀ k, k + 1 ≤ p.length →
          ∃ e e', edgeAt n (p.take (k + 1)) = some e ∧
            edgeAt n' (p.take (k + 1)) = some e' ∧
            e'.visitCount = e.visitCount + 1 ∧
            e'.totalValue = e.totalValue + v * (-1 : ℚ) ^ (p.length - (k + 1)) ∧
            e'.move = e.move ∧ e'.prior = e.prior := by
  intro N
  induction N with
  | zero =>
    intro n h
    cases n with
    | mk s ex edges =>
      simp only [Node.mk.sizeOf_spec] at h
      omega
  | succ N ih =>
    intro n hn n' v p hsim k hk
    cases n with
    | mk s ex edges =>
      rcases simulateOnce_ok_elim hsim with
        ⟨hlf, hleval, hp⟩ | ⟨hT, hex, e, c, c2, rest, hE, hbr, hn'⟩
      · subst hp
        simp at hk
      · subst hex
        rcases hbr with ⟨hc, hs, hp⟩ | ⟨hc, hcdef, hlf2, hrest, hp⟩
        · subst hp
          subst hn'
          cases k with
          | zero =>
            refine ⟨e, bumpEdge v rest.length c2 e, ?_, ?_, rfl, ?_, rfl, rfl⟩
            · rw [List.take_succ_cons, List.take_zero, edgeAt_single]
              exact hE
            · rw [List.take_succ_cons, List.take_zero, edgeAt_single]
              exact get?_set_self (get?_lt_length hE)
            · rw [show (selIdx env cfg (Node.mk s true edges) :: rest).length
                  - (0 + 1) = rest.length from by simp]
              rfl
          | succ k' =>
            cases rest with
            | nil => simp at hk
            | cons r0 rest' =>
              have hsz : sizeOf c ≤ N := by
                have := sizeOf_child_lt (s := s) (b := true) hE hc
                omega
              obtain ⟨e1, e1', hA, hB, h1, h2, h3, h4⟩ :=
                ih c hsz hs k' (by simpa using hk)
              refine ⟨e1, e1', ?_, ?_, h1, ?_, h3, h4⟩
              · rw [List.take_succ_cons, List.take_succ_cons]
                rw [List.take_succ_cons] at hA
                rw [edgeAt_cons_cons hE hc]
                exact hA
              · rw [List.take_succ_cons, List.take_succ_cons]
                rw [List.take_succ_cons] at hB
                rw [edgeAt_cons_cons (get?_set_self (get?_lt_length hE))
                  (bumpEdge_child v (r0 :: rest').length c2 e)]
                exact hB
              · rw [show (selIdx env cfg (Node.mk s true edges) :: r0 :: rest').length
                    - (k' + 1 + 1) = (r0 :: rest').length - (k' + 1) from by
                  simp only [List.length_cons]
                  omega]
                exact h2
        · subst hrest
          subst hp
          subst hn'
          cases k with
          | zero =>
            refine ⟨e, bumpEdge v 0 c2 e, ?_, ?_, rfl, ?_, rfl, rfl⟩
            · rw [List.take_succ_cons, List.take_zero, edgeAt_single]
              exact hE
            · rw [List.take_succ_cons, List.take_zero, edgeAt_single]
              exact get?_set_self (get?_lt_length hE)
            · rw [show ([selIdx env cfg (Node.mk s true edges)]).length
                  - (0 + 1) = 0 from by simp]
              rfl
          | succ k' =>
            simp at hk

/-- Selection soundness along the recorded path of one successful
simulation: every traversed node is expanded and non-terminal, and the
edge index recorded there attains the maximal UCT score among the
node's edges, every earlier index scoring strictly less. -/
lemma simulateOnce_select_aux (env : Env) (cfg : Config) :
    ∀ (N : ℕ) (n : Node), sizeOf n ≤ N →
      ∀ {n' : Node} {v : ℚ} {p : List ℕ},
        simulateOnce env cfg n = .ok (n', v, p) →
        ∀ k, k < p.length →
          ∃ nq i e, nodeAt n (p.take k) = some nq ∧
            nq.isExpanded = true ∧ env.isTerminal nq.state = false ∧
            p.get? k = some i ∧ nq.edges.get? i = some e ∧
            (∀ x ∈ nq.edges,
              uctScore cfg.explorationConstant (cfg.sqrtFn nq.visitWeight) x ≤
              uctScore cfg.explorationConstant (cfg.sqrtFn nq.visitWeight) e) ∧
            (∀ j y, j < i → nq.edges.get? j = some y →
              uctScore cfg.explorationConstant (cfg.sqrtFn nq.visitWeight) y <
              uctScore cfg.explorationConstant (cfg.sqrtFn nq.visitWeight) e) := by
  intro N
  induction N with
  | zero =>
    intro n h
    cases n with
    | mk s ex edges =>
      simp only [Node.mk.sizeOf_spec] at h
      omega
  | succ N ih =>
    intro n hn n' v p hsim k hk
    cases n with
    | mk s ex edges =>
      rcases simulateOnce_ok_elim hsim with
        ⟨hlf, hleval, hp⟩ | ⟨hT, hex, e, c, c2, rest, hE, hbr, hn'⟩
      · subst hp
        simp at hk
      · subst hex
        have hargmax :
            ∃ b, edges.get? (selIdx env cfg (.mk s true edges)) = some b ∧
              (∀ x ∈ edges,
                uctScore cfg.explorationConstant
                  (cfg.sqrtFn (Node.mk s true edges).visitWeight) x ≤
                uctScore cfg.explorationConstant
                  (cfg.sqrtFn (Node.mk s true edges).visitWeight) b) ∧
              (∀ j y, j < selIdx env cfg (.mk s true edges) →
                edges.get? j = some y →
                uctScore cfg.explorationConstant
                  (cfg.sqrtFn (Node.mk s true edges).visitWeight) y <
                uctScore cfg.explorationConstant
                  (cfg.sqrtFn (Node.mk s true edges).visitWeight) b) := by
          have hne : edges ≠ [] := by
            intro hempty
            rw [hempty] at hE
            cases hE
          exact argmaxIdx_spec _ edges hne
        obtain ⟨b, hb, hmax, hfirst⟩ := hargmax
        have hbe : b = e := by
          have := hb.symm.trans hE
          injection this
        subst hbe
        rcases hbr with ⟨hc, hs, hp⟩ | ⟨hc, hcdef, hlf2, hrest, hp⟩
        · subst hp
          subst hn'
          cases k with
          | zero =>
            exact ⟨.mk s true edges, selIdx env cfg (.mk s true edges), b,
              nodeAt_nil _, rfl, hT, rfl, hE, hmax, hfirst⟩
          | succ k' =>
            have hsz : sizeOf c ≤ N := by
              have := sizeOf_child_lt (s := s) (b := true) hE hc
              omega
            obtain ⟨nq, i, e1, hA, h1, h2, h3, h4, h5, h6⟩ :=
              ih c hsz hs k' (by simpa using hk)
            refine ⟨nq, i, e1, ?_, h1, h2, h3, h4, h5, h6⟩
            rw [List.take_succ_cons, nodeAt_cons hE hc]
            exact hA
        · subst hrest
          subst hp
          subst hn'
          cases k with
          | zero =>
            exact ⟨.mk s true edges, selIdx env cfg (.mk s true edges), b,
              nodeAt_nil _, rfl, hT, rfl, hE, hmax, hfirst⟩
          | succ k' =>
            simp at hk

lemma visitOk_mk {env : Env} {m : ℕ} {s : ℕ} {ex : Bool} {edges : List Edge} :
    visitOk env m (.mk s ex edges) =
      ((if ex then
          !env.isTerminal s && (m == 1 + (edges.map Edge.visitCount).sum)
        else
          env.isTerminal s || (m == 0)) && edgesVisitOk env edges) := by
  rw [visitOk]

lemma edgesVisitOk_get {env : Env} {l : List Edge} {i : ℕ} {e : Edge}
    (hok : edgesVisitOk env l = true) (hE : l.get? i = some e) :
    edgeVisitOk env e = true := by
  induction l generalizing i with
  | nil => cases hE
  | cons a rest ih =>
    rw [edgesVisitOk, Bool.and_eq_true] at hok
    cases i with
    | zero =>
      simp only [List.get?] at hE
      injection hE with hE
      subst hE
      exact hok.1
    | succ j =>
      simp only [List.get?] at hE
      exact ih hok.2 hE

lemma edgesVisitOk_set {env : Env} {l : List Edge} {i : ℕ} {e x : Edge}
    (hE : l.get? i = some e) (hok : edgesVisitOk env l = true)
    (hx : edgeVisitOk env x = true) :
    edgesVisitOk env (l.set i x) = true := by
  induction l generalizing i with
  | nil => cases hE
  | cons a rest ih =>
    rw [edgesVisitOk, Bool.and_eq_true] at hok
    cases i with
    | zero =>
      rw [List.set, edgesVisitOk, Bool.and_eq_true]
      exact ⟨hx, hok.2⟩
    | succ j =>
      simp only [List.get?] at hE
      rw [List.set, edgesVisitOk, Bool.and_eq_true]
      exact ⟨hok.1, ih hE hok.2⟩

lemma edgeVisitOk_none {env : Env} {e : Edge}
    (hc : e.child = none) (hok : edgeVisitOk env e = true) :
    e.visitCount = 0 := by
  cases e with
  | mk mv vc tv pr ch =>
    simp only [Edge.child] at hc
    subst hc
    rw [edgeVisitOk] at hok
    simpa [Edge.visitCount] using hok

lemma edgeVisitOk_some {env : Env} {e : Edge} {c : Node}
    (hc : e.child = some c) (hok : edgeVisitOk env e = true) :
    visitOk env e.visitCount c = true := by
  cases e with
  | mk mv vc tv pr ch =>
    simp only [Edge.child] at hc
    subst hc
    rw [edgeVisitOk] at hok
    exact hok

lemma edgeVisitOk_bump {env : Env} {e : Edge} {c2 : Node} {v : ℚ} {k : ℕ}
    (h : visitOk env (e.visitCount + 1) c2 = true) :
    edgeVisitOk env (bumpEdge v k c2 e) = true := by
  rw [show bumpEdge v k c2 e =
    .mk e.move (e.visitCount + 1) (e.totalValue + v * (-1 : ℚ) ^ k)
      e.prior (some c2) from rfl]
  rw [edgeVisitOk]
  exact h

/-- One successful simulation preserves the visit-count bookkeeping
invariant, raising the node's inbound count by one. -/
lemma visitOk_sim_aux (env : Env) (cfg : Config) :
    ∀ (N : ℕ) (n : Node), sizeOf n ≤ N →
      ∀ {m : ℕ} {n' : Node} {v : ℚ} {p : List ℕ},
        visitOk env m n = true →
        simulateOnce env cfg n = .ok (n', v, p) →
        visitOk env (m + 1) n' = true := by
  intro N
  induction N with
  | zero =>
    intro n h
    cases n with
    | mk s ex edges =>
      simp only [Node.mk.sizeOf_spec] at h
      omega
  | succ N ih =>
    intro n hn m n' v p hv hsim
    cases n with
    | mk s ex edges =>
      rcases simulateOnce_ok_elim hsim with
        ⟨hlf, hleval, hp⟩ | ⟨hT, hex, e, c, c2, rest, hE, hbr, hn'⟩
      · rcases leafEval_ok_elim hleval with
          ⟨hTrm, hl, hvv⟩ | ⟨hTrm, hexp, hvv⟩
        · subst hl
          cases ex with
          | false =>
            rw [visitOk_mk, Bool.and_eq_true] at hv ⊢
            refine ⟨?_, hv.2⟩
            simp only [Node.state] at hTrm
            simp [hTrm]
          | true =>
            rw [visitOk_mk, Bool.and_eq_true] at hv
            simp only [Node.state] at hTrm
            simp [hTrm] at hv
        · rw [expand_eq_ok] at hexp
          obtain ⟨hex0, hlen, hnn, hsum, hn'eq⟩ := hexp
          simp only [Node.isExpanded] at hex0
          subst hex0
          simp only [Node.state] at hTrm hn'eq
          subst hn'eq
          rw [visitOk_mk, Bool.and_eq_true] at hv
          have hm0 : m = 0 := by
            rcases hv with ⟨htop, -⟩
            rw [hTrm] at htop
            simpa using htop
          subst hm0
          rw [visitOk_mk, Bool.and_eq_true]
          constructor
          · rw [hTrm]
            simp [freshEdges_visit_sum]
          · exact freshEdges_edgesVisitOk env _ _
      · subst hex
        subst hn'
        rw [visitOk_mk, Bool.and_eq_true] at hv
        obtain ⟨htop, hch⟩ := hv
        simp only [if_true, Bool.and_eq_true, Bool.not_eq_true',
          beq_iff_eq] at htop
        obtain ⟨-, hsumEq⟩ := htop
        have hSums := map_sum_set (l := edges)
          (i := selIdx env cfg (.mk s true edges))
          (x := bumpEdge v rest.length c2 e) Edge.visitCount hE
        have hbump_vc : (bumpEdge v rest.length c2 e).visitCount
            = e.visitCount + 1 := rfl
        rw [visitOk_mk, Bool.and_eq_true]
        constructor
        · simp only [if_true, Bool.and_eq_true, Bool.not_eq_true', beq_iff_eq]
          refine ⟨hT, ?_⟩
          rw [hbump_vc] at hSums
          omega
        · have hbok : edgeVisitOk env (bumpEdge v rest.length c2 e) = true := by
            rcases hbr with ⟨hc, hs, hp⟩ | ⟨hc, hcdef, hlf2, hrest, hp⟩
            · have hsz : sizeOf c ≤ N := by
                have := sizeOf_child_lt (s := s) (b := true) hE hc
                omega
              exact edgeVisitOk_bump
                (ih c hsz (edgeVisitOk_some hc (edgesVisitOk_get hch hE)) hs)
            · have hvc0 : e.visitCount = 0 :=
                edgeVisitOk_none hc (edgesVisitOk_get hch hE)
              apply edgeVisitOk_bump
              rw [hvc0]
              rcases leafEval_ok_elim hlf2 with
                ⟨hTrm2, hl2, -⟩ | ⟨hTrm2, hexp2, -⟩
              · subst hl2
                subst hcdef
                rw [visitOk_mk, Bool.and_eq_true]
                simp only [Node.state] at hTrm2
                exact ⟨by simp [hTrm2], by rw [edgesVisitOk]⟩
              · rw [expand_eq_ok] at hexp2
                obtain ⟨-, -, -, -, hc2eq⟩ := hexp2
                subst hc2eq
                rw [visitOk_mk, Bool.and_eq_true]
                subst hcdef
                simp only [Node.state] at hTrm2 ⊢
                constructor
                · rw [hTrm2]
                  simp [freshEdges_visit_sum]
                · exact freshEdges_edgesVisitOk env _ _
          exact edgesVisitOk_set hE hch hbok

lemma priorOk_mk {s : ℕ} {ex : Bool} {edges : List Edge} :
    priorOk (.mk s ex edges) =
      ((if ex then
          edges.all (fun e => decide (0 ≤ e.prior))
            && decide (|(edges.map Edge.prior).sum - 1| ≤ priorTol)
        else
          edges.isEmpty) && edgesPriorOk edges) := by
  rw [priorOk]

lemma edgesPriorOk_get {l : List Edge} {i : ℕ} {e : Edge}
    (hok : edgesPriorOk l = true) (hE : l.get? i = some e) :
    edgePriorOk e = true := by
  induction l generalizing i with
  | nil => cases hE
  | cons a rest ih =>
    rw [edgesPriorOk, Bool.and_eq_true] at hok
    cases i with
    | zero =>
      simp only [List.get?] at hE
      injection hE with hE
      subst hE
      exact hok.1
    | succ j =>
      simp only [List.get?] at hE
      exact ih hok.2 hE

lemma edgesPriorOk_set {l : List Edge} {i : ℕ} {e x : Edge}
    (hE : l.get? i = some e) (hok : edgesPriorOk l = true)
    (hx : edgePriorOk x = true) :
    edgesPriorOk (l.set i x) = true := by
  induction l generalizing i with
  | nil => cases hE
  | cons a rest ih =>
    rw [edgesPriorOk, Bool.and_eq_true] at hok
    cases i with
    | zero =>
      rw [List.set, edgesPriorOk, Bool.and_eq_true]
      exact ⟨hx, hok.2⟩
    | succ j =>
      simp only [List.get?] at hE
      rw [List.set, edgesPriorOk, Bool.and_eq_true]
      exact ⟨hok.1, ih hE hok.2⟩

lemma edgePriorOk_some {e : Edge} {c : Node}
    (hc : e.child = some c) (hok : edgePriorOk e = true) :
    priorOk c = true := by
  cases e with
  | mk mv vc tv pr ch =>
    simp only [Edge.child] at hc
    subst hc
    rw [edgePriorOk] at hok
    exact hok

lemma edgePriorOk_bump {e : Edge} {c2 : Node} {v : ℚ} {k : ℕ}
    (h : priorOk c2 = true) :
    edgePriorOk (bumpEdge v k c2 e) = true := by
  rw [show bumpEdge v k c2 e =
    .mk e.move (e.visitCount + 1) (e.totalValue + v * (-1 : ℚ) ^ k)
      e.prior (some c2) from rfl]
  rw [edgePriorOk]
  exact h

lemma bumpEdge_prior (v : ℚ) (k : ℕ) (c : Node) (e : Edge) :
    (bumpEdge v k c e).prior = e.prior := rfl

/-- The prior checks of an expanded node built by a successful
expansion hold by the expansion validation. -/
lemma priorOk_fresh {st : ℕ} {lm : List ℕ} {ps : List ℚ}
    (hlen : lm.length = ps.length) (hnn : ∀ q ∈ ps, 0 ≤ q)
    (hsum : |ps.sum - 1| ≤ priorTol) :
    priorOk (.mk st true (freshEdges lm ps)) = true := by
  rw [priorOk_mk, Bool.and_eq_true]
  constructor
  · rw [if_pos rfl, Bool.and_eq_true]
    constructor
    · rw [List.all_eq_true]
      intro x hx
      have hmem : x.prior ∈ (freshEdges lm ps).map Edge.prior :=
        List.mem_map_of_mem _ hx
      rw [freshEdges_map_prior hlen] at hmem
      simpa using hnn _ hmem
    · rw [freshEdges_map_prior hlen]
      simpa using hsum
  · exact freshEdges_edgesPriorOk lm ps

/-- One successful simulation preserves the prior invariant. -/
lemma priorOk_sim_aux (env : Env) (cfg : Config) :
    ∀ (N : ℕ) (n : Node), sizeOf n ≤ N →
      ∀ {n' : Node} {v : ℚ} {p : List ℕ},
        priorOk n = true →
        simulateOnce env cfg n = .ok (n', v, p) →
        priorOk n' = true := by
  intro N
  induction N with
  | zero =>
    intro n h
    cases n with
    | mk s ex edges =>
      simp only [Node.mk.sizeOf_spec] at h
      omega
  | succ N ih =>
    intro n hn n' v p hv hsim
    cases n with
    | mk s ex edges =>
      rcases simulateOnce_ok_elim hsim with
        ⟨hlf, hleval, hp⟩ | ⟨hT, hex, e, c, c2, rest, hE, hbr, hn'⟩
      · rcases leafEval_ok_elim hleval with
          ⟨hTrm, hl, hvv⟩ | ⟨hTrm, hexp, hvv⟩
        · subst hl
          exact hv
        · rw [expand_eq_ok] at hexp
          obtain ⟨hex0, hlen, hnn, hsum, hn'eq⟩ := hexp
          simp only [Node.state] at hn'eq
          subst hn'eq
          exact priorOk_fresh hlen hnn hsum
      · subst hex
        subst hn'
        rw [priorOk_mk, Bool.and_eq_true] at hv
        obtain ⟨htop, hch⟩ := hv
        rw [priorOk_mk, Bool.and_eq_true]
        constructor
        · rw [if_pos rfl]
          rw [if_pos rfl] at htop
          rw [Bool.and_eq_true] at htop ⊢
          obtain ⟨hall, hsum⟩ := htop
          constructor
          · rw [List.all_eq_true] at hall ⊢
            intro x hx
            rcases List.mem_or_eq_of_mem_set hx with hx' | hx'
            · exact hall x hx'
            · subst hx'
              rw [bumpEdge_prior]
              have he : e ∈ edges := List.get?_mem hE
              exact hall e he
          · rw [map_set_congr Edge.prior hE (bumpEdge_prior v rest.length c2 e)]
            exact hsum
        · have hbok : edgePriorOk (bumpEdge v rest.length c2 e) = true := by
            rcases hbr with ⟨hc, hs, hp⟩ | ⟨hc, hcdef, hlf2, hrest, hp⟩
            · have hsz : sizeOf c ≤ N := by
                have := sizeOf_child_lt (s := s) (b := true) hE hc
                omega
              exact edgePriorOk_bump
                (ih c hsz (edgePriorOk_some hc (edgesPriorOk_get hch hE)) hs)
            · apply edgePriorOk_bump
              rcases leafEval_ok_elim hlf2 with
                ⟨hTrm2, hl2, -⟩ | ⟨hTrm2, hexp2, -⟩
              · subst hl2
                subst hcdef
                rw [priorOk_mk, Bool.and_eq_true]
                exact ⟨by simp, by rw [edgesPriorOk]⟩
              · rw [expand_eq_ok] at hexp2
                obtain ⟨-, hlen2, hnn2, hsum2, hc2eq⟩ := hexp2
                subst hc2eq
                exact priorOk_fresh hlen2 hnn2 hsum2
          exact edgesPriorOk_set hE hch hbok

lemma simulateOnce_stats {env : Env} {cfg : Config} {n n' : Node} {v : ℚ}
    {p : List ℕ} (hsim : simulateOnce env cfg n = .ok (n', v, p)) :
    ∀ k, k + 1 ≤ p.length →
      ∃ e e', edgeAt n (p.take (k + 1)) = some e ∧
        edgeAt n' (p.take (k + 1)) = some e' ∧
        e'.visitCount = e.visitCount + 1 ∧
        e'.totalValue = e.totalValue + v * (-1 : ℚ) ^ (p.length - (k + 1)) ∧
        e'.move = e.move ∧ e'.prior = e.prior :=
  simulateOnce_stats_aux env cfg (sizeOf n) n le_rfl hsim

lemma simulateOnce_select {env : Env} {cfg : Config} {n n' : Node} {v : ℚ}
    {p : List ℕ} (hsim : simulateOnce env cfg n = .ok (n', v, p)) :
    ∀ k, k < p.length →
      ∃ nq i e, nodeAt n (p.take k) = some nq ∧
        nq.isExpanded = true ∧ env.isTerminal nq.state = false ∧
        p.get? k = some i ∧ nq.edges.get? i = some e ∧
        (∀ x ∈ nq.edges,
          uctScore cfg.explorationConstant (cfg.sqrtFn nq.visitWeight) x ≤
          uctScore cfg.explorationConstant (cfg.sqrtFn nq.visitWeight) e) ∧
        (∀ j y, j < i → nq.edges.get? j = some y →
          uctScore cfg.explorationConstant (cfg.sqrtFn nq.visitWeight) y <
          uctScore cfg.explorationConstant (cfg.sqrtFn nq.visitWeight) e) :=
  simulateOnce_select_aux env cfg (sizeOf n) n le_rfl hsim

lemma visitOk_sim {env : Env} {cfg : Config} {m : ℕ} {n n' : Node} {v : ℚ}
    {p : List ℕ} (hv : visitOk env m n = true)
    (hsim : simulateOnce env cfg n = .ok (n', v, p)) :
    visitOk env (m + 1) n' = true :=
  visitOk_sim_aux env cfg (sizeOf n) n le_rfl hv hsim

lemma priorOk_sim {env : Env} {cfg : Config} {n n' : Node} {v : ℚ}
    {p : List ℕ} (hv : priorOk n = true)
    (hsim : simulateOnce env cfg n = .ok (n', v, p)) :
    priorOk n' = true :=
  priorOk_sim_aux env cfg (sizeOf n) n le_rfl hv hsim

lemma visitOk_runSims {env : Env} {cfg : Config} :
    ∀ {k : ℕ} {m : ℕ} {n r : Node},
      visitOk env m n = true → runSims env cfg k n = .ok r →
      visitOk env (m + k) r = true := by
  intro k
  induction k with
  | zero =>
    intro m n r hv hrun
    rw [runSims] at hrun
    injection hrun with hrun
    subst hrun
    exact hv
  | succ k ihk =>
    intro m n r hv hrun
    rw [runSims] at hrun
    revert hrun
    split
    · intro h; cases h
    · rename_i n2 v p hsim
      intro hrun
      have h1 := visitOk_sim hv hsim
      have := ihk h1 hrun
      rw [show m + (k + 1) = (m + 1) + k from by omega]
      exact this

lemma priorOk_runSims {env : Env} {cfg : Config} :
    ∀ {k : ℕ} {n r : Node},
      priorOk n = true → runSims env cfg k n = .ok r →
      priorOk r = true := by
  intro k
  induction k with
  | zero =>
    intro n r hv hrun
    rw [runSims] at hrun
    injection hrun with hrun
    subst hrun
    exact hv
  | succ k ihk =>
    intro n r hv hrun
    rw [runSims] at hrun
    revert hrun
    split
    · intro h; cases h
    · rename_i n2 v p hsim
      intro hrun
      exact ihk (priorOk_sim hv hsim) hrun

lemma visitOk_createRoot (env : Env) (s : ℕ) :
    visitOk env 0 (Node.createRoot s) = true := by
  rw [Node.createRoot, visitOk_mk]
  simp [edgesVisitOk]

lemma priorOk_createRoot (s : ℕ) :
    priorOk (Node.createRoot s) = true := by
  rw [Node.createRoot, priorOk_mk]
  simp [edgesPriorOk]

lemma edgesPriorOk_mem {l : List Edge} {e : Edge}
    (hok : edgesPriorOk l = true) (he : e ∈ l) : edgePriorOk e = true := by
  induction l with
  | nil => cases he
  | cons a rest ih =>
    rw [edgesPriorOk, Bool.and_eq_true] at hok
    rcases List.mem_cons.mp he with h | h
    · subst h; exact hok.1
    · exact ih hok.2 h

/-- Inversion of a successful `advance`. -/
lemma advance_ok_elim {env : Env} {n : Node} {mv : ℕ} {t' : Tree}
    (h : Tree.advance env ⟨n⟩ mv = .ok t') :
    ∃ e, n.edges.find? (fun e' => e'.move == mv) = some e ∧
      ((∃ c, e.child = some c ∧ t' = ⟨c⟩) ∨
        (e.child = none ∧ t' = ⟨.mk (env.applyMove n.state mv) false []⟩)) := by
  unfold Tree.advance at h
  revert h
  split
  · intro h; cases h
  · rename_i e heq
    split
    · rename_i c hc
      intro h
      injection h with h
      exact ⟨e, heq, Or.inl ⟨c, hc, h.symm⟩⟩
    · rename_i hc
      intro h
      injection h with h
      exact ⟨e, heq, Or.inr ⟨hc, h.symm⟩⟩

/-- Every tree state reachable by the public operations satisfies the
prior invariant. -/
lemma priorOk_reachable {env : Env} {cfg : Config} {n : Node}
    (h : Reachable env cfg n) : priorOk n = true := by
  induction h with
  | root s => exact priorOk_createRoot s
  | sim hr hsim ih => exact priorOk_sim ih hsim
  | expandStep hr hexp ih =>
    rename_i n0 n' lm ps
    rw [expand_eq_ok] at hexp
    obtain ⟨-, hlen, hnn, hsum, hn'eq⟩ := hexp
    subst hn'eq
    exact priorOk_fresh hlen hnn hsum
  | advanceStep hr hadv ih =>
    rename_i n0 t' mv
    obtain ⟨e, hfind, hbr⟩ := advance_ok_elim hadv
    have he : e ∈ n0.edges := List.mem_of_find?_eq_some hfind
    have hedges : edgesPriorOk n0.edges = true := by
      cases n0 with
      | mk s0 ex0 edges0 =>
        rw [priorOk_mk, Bool.and_eq_true] at ih
        exact ih.2
    rcases hbr with ⟨c, hc, ht'⟩ | ⟨hc, ht'⟩
    · subst ht'
      exact edgePriorOk_some hc (edgesPriorOk_mem hedges he)
    · subst ht'
      rw [priorOk_mk]
      simp [edgesPriorOk]

lemma selIdx_singleton (env : Env) (cfg : Config) (s : ℕ) (e : Edge) :
    selIdx env cfg (.mk s true [e]) = 0 := rfl

lemma env0_sim1 :
    simulateOnce env0 cfg0 (Node.createRoot 0) = .ok (root1, 3 / 10, []) := by
  have hexp : (Node.mk 0 false []).expand (env0.legalMoves 0) (env0.evaluate 0).1
      = .ok root1 := by
    apply expand_eq_ok.mpr
    refine ⟨rfl, rfl, ?_, ?_, rfl⟩
    · intro q hq
      have hq' : q ∈ [(1 : ℚ)] := hq
      simp at hq'
      norm_num [hq']
    · show |([(1 : ℚ)]).sum - 1| ≤ priorTol
      norm_num [priorTol]
  have hlf : Node.leafEval env0 (.mk 0 false []) = .ok (root1, 3 / 10) := by
    rw [leafEval_nonterminal rfl]
    simp only [Node.state]
    rw [hexp]
    rfl
  show simulateOnce env0 cfg0 (.mk 0 false []) = .ok (root1, 3 / 10, [])
  rw [simulateOnce_leaf (Or.inr rfl), hlf]

lemma env0_sim2 : simulateOnce env0 cfg0 root1 = .ok (root2, 1, [0]) := by
  have hlf : Node.leafEval env0
      (.mk (env0.applyMove 0 (Edge.mk 0 0 0 1 none).move) false [])
      = .ok (.mk 1 false [], 1) := leafEval_terminal rfl
  show simulateOnce env0 cfg0 (.mk 0 true [.mk 0 0 0 1 none]) = .ok (root2, 1, [0])
  rw [simulateOnce_fresh_ok rfl
    (by rw [selIdx_singleton]; rfl : ([Edge.mk 0 0 0 1 none]).get?
      (selIdx env0 cfg0 (.mk 0 true [.mk 0 0 0 1 none])) = some (.mk 0 0 0 1 none))
    rfl hlf]
  rw [selIdx_singleton]
  show Except.ok (Node.mk 0 true [bumpEdge 1 0 (.mk 1 false []) (.mk 0 0 0 1 none)], 1, [0])
    = Except.ok (root2, 1, [0])
  rw [show bumpEdge 1 0 (.mk 1 false []) (.mk 0 0 0 1 none)
    = .mk 0 1 (0 + 1 * (-1 : ℚ) ^ 0) 1 (some (.mk 1 false [])) from rfl]
  norm_num [root2]

lemma env0_sim3 : simulateOnce env0 cfg0 root2 = .ok (root3, 1, [0]) := by
  have hin : simulateOnce env0 cfg0 (.mk 1 false []) = .ok (.mk 1 false [], 1, []) := by
    rw [simulateOnce_leaf (Or.inr rfl), leafEval_terminal rfl]
    rfl
  show simulateOnce env0 cfg0 (.mk 0 true [.mk 0 1 1 1 (some (.mk 1 false []))])
    = .ok (root3, 1, [0])
  rw [simulateOnce_descend_ok rfl
    (by rw [selIdx_singleton]; rfl : ([Edge.mk 0 1 1 1 (some (.mk 1 false []))]).get?
      (selIdx env0 cfg0 (.mk 0 true [.mk 0 1 1 1 (some (.mk 1 false []))]))
        = some (.mk 0 1 1 1 (some (.mk 1 false []))))
    rfl hin]
  rw [selIdx_singleton]
  show Except.ok (Node.mk 0 true
      [bumpEdge 1 0 (.mk 1 false []) (.mk 0 1 1 1 (some (.mk 1 false [])))], 1, [0])
    = Except.ok (root3, 1, [0])
  rw [show bumpEdge 1 0 (.mk 1 false []) (.mk 0 1 1 1 (some (.mk 1 false [])))
    = .mk 0 2 (1 + 1 * (-1 : ℚ) ^ 0) 1 (some (.mk 1 false [])) from rfl]
  norm_num [root3]

lemma env0_run3 : runSims env0 cfg0 3 (Node.createRoot 0) = .ok root3 := by
  show runSims env0 cfg0 (2 + 1) (Node.createRoot 0) = .ok root3
  rw [runSims, env0_sim1]
  show runSims env0 cfg0 (1 + 1) root1 = .ok root3
  rw [runSims, env0_sim2]
  show runSims env0 cfg0 (0 + 1) root2 = .ok root3
  rw [runSims, env0_sim3]
  show runSims env0 cfg0 0 root3 = .ok root3
  rw [runSims]

lemma env2_sim2 : simulateOnce env2 cfg0 root1 = .ok (preT, 1 / 2, [0]) := by
  have hexp : (Node.mk 1 false []).expand (env2.legalMoves 1) (env2.evaluate 1).1
      = .ok (.mk 1 true [.mk 0 0 0 1 none]) := by
    apply expand_eq_ok.mpr
    refine ⟨rfl, rfl, ?_, ?_, rfl⟩
    · intro q hq
      have hq' : q ∈ [(1 : ℚ)] := hq
      simp at hq'
      norm_num [hq']
    · show |([(1 : ℚ)]).sum - 1| ≤ priorTol
      norm_num [priorTol]
  have hlf : Node.leafEval env2
      (.mk (env2.applyMove 0 (Edge.mk 0 0 0 1 none).move) false [])
      = .ok (.mk 1 true [.mk 0 0 0 1 none], 1 / 2) := by
    show Node.leafEval env2 (.mk 1 false []) = _
    rw [leafEval_nonterminal rfl]
    simp only [Node.state]
    rw [hexp]
    rfl
  show simulateOnce env2 cfg0 (.mk 0 true [.mk 0 0 0 1 none]) = .ok (preT, 1 / 2, [0])
  rw [simulateOnce_fresh_ok rfl
    (by rw [selIdx_singleton]; rfl : ([Edge.mk 0 0 0 1 none]).get?
      (selIdx env2 cfg0 (.mk 0 true [.mk 0 0 0 1 none])) = some (.mk 0 0 0 1 none))
    rfl hlf]
  rw [selIdx_singleton]
  show Except.ok (Node.mk 0 true
      [bumpEdge (1 / 2) 0 (.mk 1 true [.mk 0 0 0 1 none]) (.mk 0 0 0 1 none)], 1 / 2, [0])
    = Except.ok (preT, 1 / 2, [0])
  rw [show bumpEdge (1 / 2) 0 (.mk 1 true [.mk 0 0 0 1 none]) (.mk 0 0 0 1 none)
    = .mk 0 1 (0 + 1 / 2 * (-1 : ℚ) ^ 0) 1 (some (.mk 1 true [.mk 0 0 0 1 none])) from rfl]
  norm_num [preT]

lemma env2_sim3 : simulateOnce env2 cfg0 preT = .ok (postT, 1, [0, 0]) := by
  have hlf2 : Node.leafEval env2
      (.mk (env2.applyMove 1 (Edge.mk 0 0 0 1 none).move) false [])
      = .ok (.mk 2 false [], 1) := leafEval_terminal rfl
  have hin : simulateOnce env2 cfg0 (.mk 1 true [.mk 0 0 0 1 none])
      = .ok (.mk 1 true [.mk 0 1 1 1 (some (.mk 2 false []))], 1, [0]) := by
    rw [simulateOnce_fresh_ok rfl
      (by rw [selIdx_singleton]; rfl : ([Edge.mk 0 0 0 1 none]).get?
        (selIdx env2 cfg0 (.mk 1 true [.mk 0 0 0 1 none])) = some (.mk 0 0 0 1 none))
      rfl hlf2]
    rw [selIdx_singleton]
    show Except.ok (Node.mk 1 true
        [bumpEdge 1 0 (.mk 2 false []) (.mk 0 0 0 1 none)], 1, [0])
      = _
    rw [show bumpEdge 1 0 (.mk 2 false []) (.mk 0 0 0 1 none)
      = .mk 0 1 (0 + 1 * (-1 : ℚ) ^ 0) 1 (some (.mk 2 false [])) from rfl]
    norm_num
  show simulateOnce env2 cfg0
      (.mk 0 true [.mk 0 1 (1 / 2) 1 (some (.mk 1 true [.mk 0 0 0 1 none]))])
    = .ok (postT, 1, [0, 0])
  rw [simulateOnce_descend_ok rfl
    (by rw [selIdx_singleton]; rfl :
      ([Edge.mk 0 1 (1 / 2) 1 (some (.mk 1 true [.mk 0 0 0 1 none]))]).get?
        (selIdx env2 cfg0
          (.mk 0 true [.mk 0 1 (1 / 2) 1 (some (.mk 1 true [.mk 0 0 0 1 none]))]))
        = some (.mk 0 1 (1 / 2) 1 (some (.mk 1 true [.mk 0 0 0 1 none]))))
    rfl hin]
  rw [selIdx_singleton]
  show Except.ok (Node.mk 0 true
      [bumpEdge 1 [0].length (.mk 1 true [.mk 0 1 1 1 (some (.mk 2 false []))])
        (.mk 0 1 (1 / 2) 1 (some (.mk 1 true [.mk 0 0 0 1 none])))], 1, [0, 0])
    = Except.ok (postT, 1, [0, 0])
  rw [show bumpEdge 1 [0].length (.mk 1 true [.mk 0 1 1 1 (some (.mk 2 false []))])
      (.mk 0 1 (1 / 2) 1 (some (.mk 1 true [.mk 0 0 0 1 none])))
    = .mk 0 2 (1 / 2 + 1 * (-1 : ℚ) ^ 1) 1
        (some (.mk 1 true [.mk 0 1 1 1 (some (.mk 2 false []))])) from rfl]
  norm_num [postT]

/-- C1: during selection, for every expanded non-terminal node on the
descent path, the search records the edge maximizing
`UCT(edge) = Q(edge) + c * P(edge) * sqrt(N(parent)) / (1 + N(edge))`,
and on a tie the lowest edge index (first legal-move ordinal) wins. -/
theorem c1_selection_uct_argmax (env : Env) (cfg : Config) (n n' : Node)
    (v : ℚ) (p : List ℕ)
    (hsim : simulateOnce env cfg n = .ok (n', v, p)) :
    selectionSound env cfg n p :=
  fun k hk => simulateOnce_select hsim k hk

theorem c1_selection_uct_argmax_witness :
    simulateOnce env0 cfg0 root1 = .ok (root2, 1, [0]) ∧
      selectionSound env0 cfg0 root1 [0] :=
  ⟨env0_sim2, c1_selection_uct_argmax env0 cfg0 root1 root2 1 [0] env0_sim2⟩

/-- C2: for every completed simulation with leaf value `v`,
backpropagation walks the recorded path from leaf to root and at each
traversed edge increments the visit count by exactly 1 and adds
`v * (-1)^k` to the total value, `k` the number of levels that edge
lies above the leaf. -/
theorem c2_backprop_sign_alternation (env : Env) (cfg : Config)
    (n n' : Node) (v : ℚ) (p : List ℕ)
    (hsim : simulateOnce env cfg n = .ok (n', v, p)) :
    backpropStats n n' v p :=
  fun k hk => simulateOnce_stats hsim k hk

theorem c2_backprop_sign_alternation_witness :
    simulateOnce env2 cfg0 preT = .ok (postT, 1, [0, 0]) ∧
      backpropStats preT postT 1 [0, 0] :=
  ⟨env2_sim3, c2_backprop_sign_alternation env2 cfg0 preT postT 1 [0, 0] env2_sim3⟩

/-- C3: every tree state reachable by the public operations satisfies
the prior invariant: in every expanded node the priors are
non-negative and sum to 1 within the floating tolerance, and every
unexpanded node has no edges. -/
theorem c3_prior_invariant (env : Env) (cfg : Config) (n : Node)
    (h : Reachable env cfg n) : priorOk n = true :=
  priorOk_reachable h

theorem c3_prior_invariant_witness :
    simulateOnce env0 cfg0 (Node.createRoot 0) = .ok (root1, 3 / 10, []) ∧
      priorOk root1 = true :=
  ⟨env0_sim1, c3_prior_invariant env0 cfg0 root1
    (Reachable.sim (Reachable.root 0) env0_sim1)⟩

/-- C4 counterexample: after three simulations of the stub game
`env0`, the terminal node at path `[0]` has inbound visit count 2 but
no child edges, so its visit count is not `1 +` the sum of its child
edge visit counts — the claim fails on terminal leaf nodes that are
reached more than once. -/
theorem c4_visit_count_counterexample :
    ((runSims env0 cfg0 3 (Node.createRoot 0)).toOption.bind
      (fun r => edgeAt r [0])).map Edge.visitCount = some 2 ∧
    ((runSims env0 cfg0 3 (Node.createRoot 0)).toOption.bind
      (fun r => nodeAt r [0])).map
        (fun c => 1 + (c.edges.map Edge.visitCount).sum) = some 1 ∧
    (2 : ℕ) ≠ 1 := by
  refine ⟨?_, ?_, by decide⟩
  · rw [env0_run3]
    rfl
  · rw [env0_run3]
    rfl

/-- C4 (amended): after any number of completed simulations from a
fresh root, every expanded node's visit count (the inbound edge's
count, or the number of simulations for the root) equals 1 plus the
sum of its child edge visit counts; terminal (unexpanded) leaves
simply accumulate inbound visits with no child edges, and an edge
without a materialized child has visit count 0. -/
theorem c4_visit_count_amended (env : Env) (cfg : Config) (k s : ℕ)
    (r : Node) (hrun : runSims env cfg k (Node.createRoot s) = .ok r) :
    visitOk env k r = true := by
  have h := visitOk_runSims (visitOk_createRoot env s) hrun
  simpa using h

theorem c4_visit_count_amended_witness :
    runSims env0 cfg0 3 (Node.createRoot 0) = .ok root3 ∧
    visitOk env0 3 root3 = true :=
  ⟨env0_run3, c4_visit_count_amended env0 cfg0 3 0 root3 env0_run3⟩

/-- C5 counterexample: with matching lengths, an unexpanded node, and
priors `[5]` (whose sum is far from 1), `expand` still fails with
`InvalidPriorsError`, so "otherwise allocates one edge per legal
move" is false as stated. -/
theorem c5_expand_counterexample :
    (Node.createRoot 0).isExpanded = false ∧
    ([0] : List ℕ).length = ([(5 : ℚ)] : List ℚ).length ∧
    (Node.createRoot 0).expand [0] [(5 : ℚ)] = .error .invalidPriors := by
  refine ⟨rfl, rfl, ?_⟩
  apply expand_bad_sum (show (Node.createRoot 0).isExpanded = false from rfl)
  rw [show ([(5 : ℚ)] : List ℚ).sum = 5 from by simp]
  rw [show ((5 : ℚ) - 1) = 4 from by norm_num]
  rw [abs_of_nonneg (by norm_num : (0 : ℚ) ≤ 4)]
  norm_num [priorTol]

/-- C5 (amended): `expand` fails with `AlreadyExpandedError` on an
expanded node; fails with `InvalidPriorsError` when the lengths of
`legalMoves` and `priors` differ, when some prior is negative, or
when the priors do not sum to 1 within the tolerance; and otherwise
allocates exactly one edge per legal move carrying the prior at the
same position, with zero statistics and no child node. -/
theorem c5_expand_amended (n : Node) (lm : List ℕ) (ps : List ℚ) :
    (n.isExpanded = true → n.expand lm ps = .error .alreadyExpanded) ∧
    (n.isExpanded = false → lm.length ≠ ps.length →
      n.expand lm ps = .error .invalidPriors) ∧
    (n.isExpanded = false → ∀ q ∈ ps, q < 0 →
      n.expand lm ps = .error .invalidPriors) ∧
    (n.isExpanded = false → priorTol < |ps.sum - 1| →
      n.expand lm ps = .error .invalidPriors) ∧
    (n.isExpanded = false → lm.length = ps.length → (∀ q ∈ ps, 0 ≤ q) →
      |ps.sum - 1| ≤ priorTol →
      n.expand lm ps = .ok (.mk n.state true (freshEdges lm ps))) := by
  refine ⟨expand_already, expand_len_mismatch, ?_, expand_bad_sum, ?_⟩
  · intro hex q hq hlt
    exact expand_neg_prior hex hq hlt
  · intro hex hlen hnn hsum
    exact expand_eq_ok.mpr ⟨hex, hlen, hnn, hsum, rfl⟩

theorem c5_expand_amended_witness :
    (Node.mk 0 true []).expand [0] [(1 : ℚ)] = .error .alreadyExpanded ∧
    (Node.createRoot 0).expand [0, 1] [(1 : ℚ)] = .error .invalidPriors ∧
    (Node.createRoot 0).expand [0, 1] [(2 : ℚ), -1] = .error .invalidPriors ∧
    (Node.createRoot 0).expand [7] [(1 : ℚ)] =
      .ok (.mk 0 true [.mk 7 0 0 1 none]) := by
  refine ⟨(c5_expand_amended (.mk 0 true []) [0] [1]).1 rfl,
    (c5_expand_amended (Node.createRoot 0) [0, 1] [1]).2.1 rfl (by decide),
    (c5_expand_amended (Node.createRoot 0) [0, 1] [2, -1]).2.2.1 rfl (-1)
      (by simp) (by norm_num),
    ?_⟩
  have h := (c5_expand_amended (Node.createRoot 0) [7] [1]).2.2.2.2 rfl rfl
    (by intro q hq; simp at hq; norm_num [hq])
    (by show |([(1 : ℚ)]).sum - 1| ≤ priorTol; norm_num [priorTol])
  simpa [freshEdges, Node.createRoot] using h

/-- C6: `advance` fails with `IllegalMoveError` exactly when the move
is not among the root's edges (the input tree, a pure value, is left
untouched and no tree is produced); on a move found among the root's
edges it returns the tree rooted at the child reached by that move
(materialized lazily if needed), all sibling subtrees absent from the
result. -/
theorem c6_advance_spec (env : Env) (t : Tree) (mv : ℕ) :
    ((∀ e ∈ t.root.edges, e.move ≠ mv) →
      Tree.advance env t mv = .error .illegalMove) ∧
    (∀ e, t.root.edges.find? (fun e' => e'.move == mv) = some e →
      Tree.advance env t mv =
        .ok ⟨e.child.getD (.mk (env.applyMove t.root.state mv) false [])⟩) := by
  constructor
  · intro h
    have hnone : t.root.edges.find? (fun e' => e'.move == mv) = none := by
      rw [List.find?_eq_none]
      intro x hx
      simpa using h x hx
    unfold Tree.advance
    rw [hnone]
  · intro e hfind
    unfold Tree.advance
    rw [hfind]
    show (match e.child with
      | some c => Except.ok (⟨c⟩ : Tree)
      | none => Except.ok (⟨Node.mk (env.applyMove t.root.state mv) false []⟩ : Tree)) = _
    cases hc : e.child with
    | some c => rfl
    | none => rfl

theorem c6_advance_spec_witness :
    Tree.advance env0 ⟨root3⟩ 99 = .error .illegalMove ∧
    Tree.advance env0 ⟨root3⟩ 0 = .ok ⟨.mk 1 false []⟩ := by
  constructor
  · apply (c6_advance_spec env0 ⟨root3⟩ 99).1
    intro e he
    have he' : e ∈ [Edge.mk 0 2 2 1 (some (.mk 1 false []))] := he
    simp at he'
    subst he'
    show (Edge.mk 0 2 2 1 (some (Node.mk 1 false []))).move ≠ 99
    decide
  · have h := (c6_advance_spec env0 ⟨root3⟩ 0).2
      (.mk 0 2 2 1 (some (.mk 1 false []))) rfl
    exact h

/-- C7: after the simulation budget is exhausted, the emitted move
distribution over root edges follows
`pi(move) = N(edge)^(1/temperature) / sum of N(edge')^(1/temperature)`
for every positive temperature, and at temperature 0 it is the
one-hot distribution on the edge with maximal visit count, ties
resolved by lowest move index. -/
theorem c7_temperature_distribution (env : Env) (cfg : Config) (t : Tree)
    (res : SearchResult) (hrun : Search.run env cfg t = .ok res) :
    (0 < cfg.temperature → tempFormula cfg res) ∧
    (cfg.temperature = 0 → res.visits ≠ [] → tempZeroOneHot cfg res) := by
  constructor
  · intro hpos
    unfold tempFormula emittedDist piDist
    rw [if_neg hpos.ne']
  · intro h0 hne
    unfold tempZeroOneHot emittedDist piDist
    rw [if_pos h0]
    obtain ⟨b, hb, hmax, hfirst⟩ :=
      argmaxIdx_spec (fun k : ℕ => (k : ℚ)) res.visits hne
    refine ⟨argmaxIdx (fun k : ℕ => (k : ℚ)) res.visits, b, rfl, hb, ?_, ?_⟩
    · intro x hx
      exact_mod_cast hmax x hx
    · intro i y hi hy
      exact_mod_cast hfirst i y hi hy

lemma env0_runResult :
    Search.run env0 cfg0 ⟨Node.createRoot 0⟩ = .ok ⟨[0], [2], 1⟩ := by
  unfold Search.run
  rw [show cfg0.simulationCount = 3 from rfl]
  rw [show (Tree.mk (Node.createRoot 0)).root = Node.createRoot 0 from rfl]
  rw [env0_run3]
  show Except.ok (⟨root3.edges.map Edge.move, root3.edges.map Edge.visitCount,
    match root3.edges.get? (argmaxIdx (fun e => (e.visitCount : ℚ)) root3.edges) with
    | none => 0
    | some e => e.meanValue⟩ : SearchResult) = _
  rw [show root3.edges.get? (argmaxIdx (fun e => (e.visitCount : ℚ)) root3.edges)
    = some (.mk 0 2 2 1 (some (.mk 1 false []))) from rfl]
  show Except.ok (⟨[0], [2],
    (Edge.mk 0 2 2 1 (some (.mk 1 false []))).meanValue⟩ : SearchResult) = _
  rw [show (Edge.mk 0 2 2 1 (some (.mk 1 false []))).meanValue
    = ((2 : ℚ) / (2 : ℚ)) from by rw [Edge.meanValue]; rfl]
  norm_num

theorem c7_temperature_distribution_witness :
    Search.run env0 cfg0 ⟨Node.createRoot 0⟩ =
      .ok (⟨[0], [2], 1⟩ : SearchResult) ∧
    cfg0.temperature = 0 ∧
    tempZeroOneHot cfg0 (⟨[0], [2], 1⟩ : SearchResult) :=
  ⟨env0_runResult, rfl,
    (c7_temperature_distribution env0 cfg0 ⟨Node.createRoot 0⟩
      ⟨[0], [2], 1⟩ env0_runResult).2 rfl (by decide)⟩

/-- C8: the search is a pure function of the environment stub, the
configuration (exploration constant, simulation count, temperature,
square-root table), and the starting tree: two runs with identical
inputs produce identical results and identical emitted move
distributions. -/
theorem c8_run_determinism (envA envB : Env) (cfgA cfgB : Config)
    (tA tB : Tree) (he : envA = envB) (hc : cfgA = cfgB) (ht : tA = tB) :
    Search.run envA cfgA tA = Search.run envB cfgB tB ∧
    (Search.run envA cfgA tA).map (emittedDist cfgA) =
      (Search.run envB cfgB tB).map (emittedDist cfgB) := by
  subst he
  subst hc
  subst ht
  exact ⟨rfl, rfl⟩

theorem c8_run_determinism_witness :
    Search.run env0 cfg0 ⟨Node.createRoot 0⟩ =
      Search.run env0 cfg0 ⟨Node.createRoot 0⟩ ∧
    (Search.run env0 cfg0 ⟨Node.createRoot 0⟩).map (emittedDist cfg0) =
      (Search.run env0 cfg0 ⟨Node.createRoot 0⟩).map (emittedDist cfg0) :=
  c8_run_determinism env0 env0 cfg0 cfg0 ⟨Node.createRoot 0⟩
    ⟨Node.createRoot 0⟩ rfl rfl rfl

/-- C9 counterexample: the `Nav` variant of `src/unnamed/part_001`
links its Settings anchor to "/Settings" (capital S), so its href set
differs from the other two variants and its Settings link is not
"/settings". -/
theorem c9_nav_counterexample :
    (navPart002.map Anchor.href).contains "/settings" = true ∧
    (navPart001.map Anchor.href).contains "/settings" = false ∧
    navPart001.map Anchor.href ≠ navPart002.map Anchor.href := by
  refine ⟨by decide, by decide, by decide⟩

/-- C9 (amended): the variants of `src/unnamed/part_002` and
`src/unnamed/part_003` render the same href targets, with Settings
linking to "/settings"; the variant of `src/unnamed/part_001` agrees
on the Home, Play and Stats targets but links Settings to
"/Settings". -/
theorem c9_nav_amended :
    navPart002.map Anchor.href = navPart003.map Anchor.href ∧
    navPart001.map Anchor.href =
      ["/", "https://online-go.com/play", "/stats", "/Settings"] ∧
    navPart002.map Anchor.href =
      ["/", "https://online-go.com/play", "/stats", "/settings"] ∧
    (navPart002.filter (fun a => a.label == "Settings")).map Anchor.href
      = ["/settings"] ∧
    (navPart003.filter (fun a => a.label == "Settings")).map Anchor.href
      = ["/settings"] := by
  refine ⟨by decide, by decide, by decide, by decide, by decide⟩

/-- C10: in every `Nav` component variant the Play anchor's href is
the external URL "https://online-go.com/play", which is not an
internal route of the application (it does not start with "/"). -/
theorem c10_play_external :
    (navPart001.filter (fun a => a.label == "Play")).map Anchor.href
      = ["https://online-go.com/play"] ∧
    (navPart002.filter (fun a => a.label == "Play")).map Anchor.href
      = ["https://online-go.com/play"] ∧
    (navPart003.filter (fun a => a.label == "Play")).map Anchor.href
      = ["https://online-go.com/play"] ∧
    ("https://online-go.com/play".data.head? ≠ some '/') := by
  refine ⟨by decide, by decide, by decide, by decide⟩

end MiniAlphaGo
